import Mathlib

/-!
# Verification of the Phase 2 curation pipeline (`phase2_curation.py`)

Shallow embedding of the string-processing and record-numbering logic of the
interactive curation script.  Python strings are modelled as `List Char`;
Python `int` values as `Int`; console input streams as `List (List Char)`
(one entry per line the operator types); fallible prompt loops return
`Option` (`none` when the operator never supplies acceptable input).
-/

namespace Phase2

/-- Characters of a Lean string literal, used to write Python string
literals in the embedding. -/
def chars (s : String) : List Char := s.data

/-- The apostrophe character (removed by filename sanitization). -/
def squote : Char := Char.ofNat 39

/-- ASCII whitespace recognized by Python's `str.strip()`. -/
def isPySpace (c : Char) : Bool :=
  c == ' ' || c == '\t' || c == '\n' || c == '\r' || c == '\x0b' || c == '\x0c'

/-- Remove trailing whitespace, as the tail half of Python `str.strip()`. -/
def stripEnd (s : List Char) : List Char :=
  (s.reverse.dropWhile isPySpace).reverse

/-- Python `str.strip()`: remove leading and trailing whitespace. -/
def pyStrip (s : List Char) : List Char :=
  stripEnd (s.dropWhile isPySpace)

/-- Python `str.lower()` (ASCII case folding). -/
def pyLower (s : List Char) : List Char := s.map Char.toLower

/-- Python `str.split(sep)` for a one-character separator: keeps empty
chunks, so the result always has `count sep + 1` entries. -/
def splitOnChar (sep : Char) : List Char → List (List Char)
  | [] => [[]]
  | c :: cs =>
    match splitOnChar sep cs with
    | [] => [[]]
    | h :: t => if c == sep then [] :: h :: t else (c :: h) :: t

/-- Python `str.split(sep, 1)`: split at the first separator only. -/
def pySplitOnce (sep : Char) : List Char → List (List Char)
  | [] => [[]]
  | c :: cs =>
    if c == sep then [[], cs]
    else
      match pySplitOnce sep cs with
      | [] => [[c]]
      | h :: t => (c :: h) :: t

/-- Python `str.splitlines()` restricted to `\n` line ends: like splitting
on `\n` but with no empty final chunk after a trailing newline, and `[]`
on the empty string. -/
def pySplitlines (s : List Char) : List (List Char) :=
  match s with
  | [] => []
  | _ =>
    let parts := splitOnChar '\n' s
    if s.getLast? = some '\n' then parts.dropLast else parts

/-- Numeric value of a list of decimal digit characters. -/
def digitsVal (s : List Char) : Nat :=
  s.foldl (fun a c => 10 * a + (c.toNat - 48)) 0

/-- Parse a nonempty all-digit character list, else `none`. -/
def decDigits (s : List Char) : Option Nat :=
  if s ≠ [] ∧ s.all Char.isDigit then some (digitsVal s) else none

/-- Python `int(s)` on a string: strip whitespace, optional sign, decimal
digits; `none` models the `ValueError` path. -/
def pyInt (s : List Char) : Option Int :=
  match pyStrip s with
  | [] => none
  | c :: cs =>
    if c == '-' then (decDigits cs).map (fun n : Nat => -(n : Int))
    else if c == '+' then (decDigits cs).map (fun n : Nat => (n : Int))
    else (decDigits (c :: cs)).map (fun n : Nat => (n : Int))

/-- Decimal rendering of a natural number, fuel-based so that it reduces in
the kernel.  `natToDec` below always supplies enough fuel. -/
def natToDecAux : Nat → Nat → List Char
  | 0, _ => []
  | fuel + 1, n =>
    if n < 10 then [Nat.digitChar n]
    else natToDecAux fuel (n / 10) ++ [Nat.digitChar (n % 10)]

/-- Python `str(n)` for a natural number. -/
def natToDec (n : Nat) : List Char := natToDecAux (n + 1) n

/-- Python `s.endswith(suffix)`. -/
def pyEndsWith (s suffix : List Char) : Bool :=
  List.isSuffixOf suffix s

/-- Python `sub in s` substring containment. -/
def pyIn (sub : List Char) : List Char → Bool
  | [] => sub.isEmpty
  | c :: cs => sub.isPrefixOf (c :: cs) || pyIn sub cs

/-- Run a fallible function over a list, failing when any element fails;
models a Python list comprehension that may raise (caught by the caller). -/
def mapOption {α β : Type} (f : α → Option β) : List α → Option (List β)
  | [] => some []
  | a :: t =>
    match f a with
    | none => none
    | some b => (mapOption f t).map (fun l => b :: l)

/-! ## Embedding of the source functions -/

/-- `MENTAL_HEALTH_THEMES`: the fixed theme vocabulary. -/
def MENTAL_HEALTH_THEMES : List (List Char) :=
  [chars "anxiety", chars "depression", chars "stress_management",
   chars "burnout", chars "grief", chars "addiction_recovery",
   chars "imposter_syndrome", chars "self_esteem",
   chars "relationship_challenges", chars "public_pressure"]

/-- Python `s.replace(c, "")` for a one-character pattern: every
occurrence of `c` is removed. -/
def removeAllChar (c : Char) (s : List Char) : List Char :=
  s.filter (fun x => x != c)

/-- `sanitize_role_model_name`: `name.replace(" ", "").replace("'", "")`. -/
def sanitize_role_model_name (name : List Char) : List Char :=
  removeAllChar squote (removeAllChar ' ' name)

/-- `infer_role_model_name_from_raw`: scan the lines for the first whose
lowercasing starts with `"role model:"`; return the stripped text after
the first colon of that original line. -/
def infer_role_model_name_from_raw (raw_content : List Char) : Option (List Char) :=
  (pySplitlines raw_content).findSome? (fun line =>
    if (chars "role model:").isPrefixOf (pyLower line) then
      some (pyStrip ((pySplitOnce ':' line).getD 1 []))
    else none)

/-- The per-filename scan body of `get_next_story_number`: `some n` when
the file contributes story number `n` for the queried key, `none` when the
file is skipped (wrong extension, too few `_` parts, wrong name or roll
number, or non-numeric story segment). -/
def story_extract (clean_name roll_number fname : List Char) : Option Int :=
  if pyEndsWith fname (chars ".json") = false then none
  else
    let parts := splitOnChar '_' fname
    if parts.length < 3 then none
    else
      let file_clean_name := parts.headD []
      let story_part := parts.getD 1 []
      let roll_part := (splitOnChar '.' (parts.getD 2 [])).headD []
      if file_clean_name ≠ clean_name then none
      else if roll_part ≠ roll_number then none
      else pyInt story_part

/-- `get_next_story_number`: one more than the maximum story number
extracted from the directory listing `files`, or `1` when nothing
matches. -/
def get_next_story_number (files : List (List Char))
    (role_model_name roll_number : List Char) : Int :=
  let clean_name := sanitize_role_model_name role_model_name
  let existing_numbers := files.filterMap (story_extract clean_name roll_number)
  match existing_numbers with
  | [] => 1
  | h :: t => t.foldl max h + 1

/-- The output filename `f"{clean_name}_{story_number}_{roll_number}.json"`
computed by `create_json_entry`. -/
def output_filename (role_model_name : List Char) (story_number : Nat)
    (roll_number : List Char) : List Char :=
  sanitize_role_model_name role_model_name ++ chars "_" ++ natToDec story_number
    ++ chars "_" ++ roll_number ++ chars ".json"

/-- The output directory after `k` records are created sequentially for one
(subject, operator) key, starting from an empty directory: each step numbers
the new record with `get_next_story_number` and prepends its filename. -/
def sessionFiles (role_model_name roll_number : List Char) : Nat → List (List Char)
  | 0 => []
  | k + 1 =>
    let prev := sessionFiles role_model_name roll_number k
    output_filename role_model_name
      (get_next_story_number prev role_model_name roll_number).toNat
      roll_number :: prev

/-- One pass of the body of the `select_mental_health_themes` loop on a raw
input line: `none` models every re-prompt path (`ValueError`, an
out-of-range index, or a count outside 2..4). -/
def select_themes_attempt (input : List Char) : Option (List (List Char)) :=
  match mapOption (fun c => pyInt (pyStrip c)) (splitOnChar ',' input) with
  | none => none
  | some parsed =>
    let choices := parsed.map (fun c => c - 1)
    if ∀ c ∈ choices, 0 ≤ c ∧ c < (MENTAL_HEALTH_THEMES.length : Int) then
      if 2 ≤ choices.length ∧ choices.length ≤ 4 then
        some (choices.map (fun c => MENTAL_HEALTH_THEMES.getD c.toNat []))
      else none
    else none

/-- `select_mental_health_themes`: retry over the operator's input stream
until one attempt is accepted. -/
def select_mental_health_themes (inputs : List (List Char)) : Option (List (List Char)) :=
  inputs.findSome? select_themes_attempt

/-- One pass of the `get_coping_strategies` loop: accept when the stripped
input has length at least 5, then split on commas, strip the items and drop
the empty ones. -/
def strategies_attempt (raw : List Char) : Option (List (List Char)) :=
  let strategies_input := pyStrip raw
  if strategies_input.isEmpty ∨ strategies_input.length < 5 then none
  else some (((splitOnChar ',' strategies_input).map pyStrip).filter (fun s => !s.isEmpty))

/-- `get_coping_strategies`: retry over the input stream until accepted. -/
def get_coping_strategies (inputs : List (List Char)) : Option (List (List Char)) :=
  inputs.findSome? strategies_attempt

/-- The shared shape of the validated free-text prompts: strip each input
and re-prompt while it is empty or shorter than `minLen`. -/
def collect_field (minLen : Nat) : List (List Char) → Option (List Char)
  | [] => none
  | i :: rest =>
    let v := pyStrip i
    if v.isEmpty ∨ v.length < minLen then collect_field minLen rest
    else some v

/-- `get_context` (minimum 10 characters). -/
def get_context (inputs : List (List Char)) : Option (List Char) :=
  collect_field 10 inputs

/-- `get_situation_faced` (minimum 10 characters). -/
def get_situation_faced (inputs : List (List Char)) : Option (List Char) :=
  collect_field 10 inputs

/-- `get_challenge_narrative` (minimum 20 characters). -/
def get_challenge_narrative (inputs : List (List Char)) : Option (List Char) :=
  collect_field 20 inputs

/-- `get_key_action` (minimum 5 characters). -/
def get_key_action (inputs : List (List Char)) : Option (List Char) :=
  collect_field 5 inputs

/-- `get_psychological_lesson` (minimum 20 characters). -/
def get_psychological_lesson (inputs : List (List Char)) : Option (List Char) :=
  collect_field 20 inputs

/-- `get_outcome_resolution` (minimum 10 characters). -/
def get_outcome_resolution (inputs : List (List Char)) : Option (List Char) :=
  collect_field 10 inputs

/-- `get_quote_from_text`: strip and re-prompt while shorter than 10; then
a case-insensitive containment test against the raw text; on failure the
next input line answers the override confirmation (`y` accepts the quote,
anything else restarts the whole prompt). -/
def get_quote_from_text (raw_content : List Char) : List (List Char) → Option (List Char)
  | [] => none
  | i :: rest =>
    let quote := pyStrip i
    if quote.isEmpty ∨ quote.length < 10 then get_quote_from_text raw_content rest
    else if pyIn (pyLower quote) (pyLower raw_content) then some quote
    else
      match rest with
      | [] => none
      | confirm :: rest2 =>
        if pyLower confirm = chars "y" then some quote
        else get_quote_from_text raw_content rest2

/-- The record assembled by `create_json_entry` (field names as in the
emitted JSON object). -/
structure StoryEntry where
  Role_Model_Name : List Char
  Role_Model_Context : List Char
  Situation_Faced : List Char
  Challenge_Narrative : List Char
  Mental_Health_Themes : List (List Char)
  Coping_Strategies_Used : List (List Char)
  Key_Action_Taken : List Char
  Key_Quote_or_Insight : List Char
  Summary_Psychological : List Char
  Outcome_Resolution : List Char
  Source_Reference : List Char

/-- The list of story numbers `[k, k-1, ..., 1]` (as integers): the numbers
extracted back from `sessionFiles` in directory-listing order. -/
def descInts : Nat → List Int
  | 0 => []
  | k + 1 => ((k + 1 : Nat) : Int) :: descInts k

/-- The filesystem effect of `open(output_path, "w")` followed by
`json.dump`: the store maps each path to its contents, and a write replaces
whatever was there with the new entry, unconditionally. -/
def write_entry (store : List Char → Option StoryEntry) (path : List Char)
    (entry : StoryEntry) : List Char → Option StoryEntry :=
  fun p => if p = path then some entry else store p

/-! ## Helper lemmas about splitting -/

theorem splitOnChar_ne_nil (sep : Char) (s : List Char) : splitOnChar sep s ≠ [] := by
  cases s with
  | nil => simp [splitOnChar]
  | cons c cs =>
    simp only [splitOnChar]
    cases splitOnChar sep cs with
    | nil => simp
    | cons h t => by_cases hc : (c == sep) = true <;> simp [hc]

theorem splitOnChar_not_mem (sep : Char) (a : List Char) (h : sep ∉ a) :
    splitOnChar sep a = [a] := by
  induction a with
  | nil => rfl
  | cons c cs ih =>
    have hc : c ≠ sep := fun e => h (e ▸ List.mem_cons_self c cs)
    have hcs : sep ∉ cs := fun e => h (List.mem_cons_of_mem c e)
    simp only [splitOnChar, ih hcs]
    simp [beq_eq_false_iff_ne.mpr hc]

theorem splitOnChar_append (sep : Char) (a b : List Char) (h : sep ∉ a) :
    splitOnChar sep (a ++ sep :: b) = a :: splitOnChar sep b := by
  induction a with
  | nil =>
    simp only [List.nil_append, splitOnChar]
    cases hb : splitOnChar sep b with
    | nil => exact absurd hb (splitOnChar_ne_nil sep b)
    | cons x t => simp
  | cons c cs ih =>
    have hc : c ≠ sep := fun e => h (e ▸ List.mem_cons_self c cs)
    have hcs : sep ∉ cs := fun e => h (List.mem_cons_of_mem c e)
    simp only [List.cons_append, splitOnChar, List.append_eq]
    rw [ih hcs]
    simp [beq_eq_false_iff_ne.mpr hc]

theorem splitOnChar_headD (sep : Char) (s : List Char) :
    (splitOnChar sep s).headD [] = s.takeWhile (fun c => c != sep) := by
  induction s with
  | nil => rfl
  | cons c cs ih =>
    simp only [splitOnChar]
    cases hcs : splitOnChar sep cs with
    | nil => exact absurd hcs (splitOnChar_ne_nil sep cs)
    | cons h t =>
      by_cases hc : c = sep
      · subst hc
        simp [List.takeWhile_cons]
      · rw [hcs] at ih
        simp only [List.headD_cons] at ih
        simp [beq_eq_false_iff_ne.mpr hc, List.takeWhile_cons, bne, beq_eq_false_iff_ne.mpr hc, ih]

theorem splitOnChar_length (sep : Char) (s : List Char) :
    (splitOnChar sep s).length = s.count sep + 1 := by
  induction s with
  | nil => simp [splitOnChar]
  | cons c cs ih =>
    simp only [splitOnChar]
    cases hcs : splitOnChar sep cs with
    | nil => exact absurd hcs (splitOnChar_ne_nil sep cs)
    | cons h t =>
      rw [hcs] at ih
      simp only [List.length_cons] at ih
      by_cases hc : c = sep
      · subst hc
        simp [List.count_cons]
        omega
      · simp [List.count_cons, beq_eq_false_iff_ne.mpr hc]
        omega

/-! ## Helper lemmas about takeWhile -/

theorem takeWhile_append_all {p : Char → Bool} {a : List Char} (b : List Char)
    (h : ∀ x ∈ a, p x = true) :
    (a ++ b).takeWhile p = a ++ b.takeWhile p := by
  rw [List.takeWhile_append, if_pos]
  rw [List.takeWhile_eq_self_iff.mpr h]

theorem takeWhile_append_stop {p : Char → Bool} {a : List Char} (b : List Char)
    (h : ∃ x ∈ a, p x = false) :
    (a ++ b).takeWhile p = a.takeWhile p := by
  rw [List.takeWhile_append, if_neg]
  intro hlen
  have heq : a.takeWhile p = a :=
    ( List.takeWhile_prefix p).eq_of_length hlen
  obtain ⟨x, hx, hpx⟩ := h
  have := List.takeWhile_eq_self_iff.mp heq x hx
  rw [this] at hpx
  simp at hpx

/-! ## Decimal rendering and parsing -/

theorem digitChar_spec (n : Nat) (h : n < 10) :
    (Nat.digitChar n).toNat = 48 + n ∧ (Nat.digitChar n).isDigit = true := by
  interval_cases n <;> exact ⟨rfl, rfl⟩

theorem digitsVal_append_single (l : List Char) (c : Char) :
    digitsVal (l ++ [c]) = 10 * digitsVal l + (c.toNat - 48) := by
  simp [digitsVal, List.foldl_append]

theorem natToDecAux_spec (fuel : Nat) :
    ∀ n, n < fuel → digitsVal (natToDecAux fuel n) = n ∧
      (∀ c ∈ natToDecAux fuel n, c.isDigit = true) ∧ natToDecAux fuel n ≠ [] := by
  induction fuel with
  | zero => intro n hn; omega
  | succ fuel ih =>
    intro n hn
    by_cases h10 : n < 10
    · simp only [natToDecAux, if_pos h10]
      obtain ⟨hval, hdig⟩ := digitChar_spec n h10
      refine ⟨?_, ?_, by simp⟩
      · simp [digitsVal, hval]
      · intro c hc
        rw [List.mem_singleton] at hc
        rw [hc]; exact hdig
    · simp only [natToDecAux, if_neg h10]
      have hdiv : n / 10 < fuel := by omega
      obtain ⟨hval, hdig, _⟩ := ih (n / 10) hdiv
      obtain ⟨hcval, hcdig⟩ := digitChar_spec (n % 10) (Nat.mod_lt n (by omega))
      refine ⟨?_, ?_, by simp⟩
      · rw [digitsVal_append_single, hval, hcval]
        omega
      · intro c hc
        rcases List.mem_append.mp hc with hc | hc
        · exact hdig c hc
        · rw [List.mem_singleton] at hc
          rw [hc]; exact hcdig

theorem natToDec_val (n : Nat) : digitsVal (natToDec n) = n :=
  (natToDecAux_spec (n + 1) n (Nat.lt_succ_self n)).1

theorem natToDec_digits (n : Nat) : ∀ c ∈ natToDec n, c.isDigit = true :=
  (natToDecAux_spec (n + 1) n (Nat.lt_succ_self n)).2.1

theorem natToDec_ne_nil (n : Nat) : natToDec n ≠ [] :=
  (natToDecAux_spec (n + 1) n (Nat.lt_succ_self n)).2.2

theorem isDigit_not_space {c : Char} (h : c.isDigit = true) : isPySpace c = false := by
  by_contra hsp
  rw [Bool.not_eq_false] at hsp
  simp only [isPySpace, Bool.or_eq_true, beq_iff_eq] at hsp
  rcases hsp with ((((e | e) | e) | e) | e) | e <;> subst e <;> exact absurd h (by decide)

theorem isDigit_ne {c : Char} (h : c.isDigit = true) :
    c ≠ '_' ∧ c ≠ '.' ∧ c ≠ '-' ∧ c ≠ '+' := by
  refine ⟨?_, ?_, ?_, ?_⟩ <;> intro e <;> subst e <;> exact absurd h (by decide)

/-! ## Stripping lemmas -/

theorem dropWhile_no_space (l : List Char) (h : ∀ c ∈ l, isPySpace c = false) :
    l.dropWhile isPySpace = l := by
  cases l with
  | nil => rfl
  | cons a t =>
    apply List.dropWhile_cons_of_neg
    simp [h a (List.mem_cons_self a t)]

theorem pyStrip_no_space (l : List Char) (h : ∀ c ∈ l, isPySpace c = false) :
    pyStrip l = l := by
  unfold pyStrip stripEnd
  rw [dropWhile_no_space l h,
    dropWhile_no_space l.reverse (fun c hc => h c (List.mem_reverse.mp hc)),
    List.reverse_reverse]

theorem stripEnd_prefix (l : List Char) : stripEnd l <+: l := by
  unfold stripEnd
  have h := List.dropWhile_suffix (l := l.reverse) isPySpace
  have := List.reverse_prefix.mpr h
  simpa using this

theorem pyStrip_head (s : List Char) {c : Char} {t : List Char}
    (h : pyStrip s = c :: t) : isPySpace c = false := by
  unfold pyStrip at h
  obtain ⟨u, hu⟩ := stripEnd_prefix (s.dropWhile isPySpace)
  rw [h] at hu
  have hhead : (s.dropWhile isPySpace).head? = some c := by
    rw [← hu]; simp
  have hm := List.head?_dropWhile_not isPySpace s
  rw [hhead] at hm
  exact hm

theorem pyStrip_getLast (s : List Char) {c : Char}
    (h : (pyStrip s).getLast? = some c) : isPySpace c = false := by
  unfold pyStrip stripEnd at h
  rw [List.getLast?_reverse] at h
  have hm := List.head?_dropWhile_not isPySpace (s.dropWhile isPySpace).reverse
  rw [h] at hm
  exact hm

theorem dropWhile_of_head (l : List Char) {c : Char}
    (hh : l.head? = some c) (hc : isPySpace c = false) :
    l.dropWhile isPySpace = l := by
  cases l with
  | nil => rfl
  | cons a t =>
    simp only [List.head?_cons, Option.some.injEq] at hh
    subst hh
    apply List.dropWhile_cons_of_neg
    simp [hc]

theorem stripEnd_of_getLast (l : List Char) {c : Char}
    (hh : l.getLast? = some c) (hc : isPySpace c = false) :
    stripEnd l = l := by
  unfold stripEnd
  rw [dropWhile_of_head l.reverse (by rw [List.head?_reverse]; exact hh) hc,
    List.reverse_reverse]

theorem pyStrip_idem (s : List Char) : pyStrip (pyStrip s) = pyStrip s := by
  cases hr : pyStrip s with
  | nil => rfl
  | cons c t =>
    have hc := pyStrip_head s hr
    have hne : (c :: t) ≠ [] := by simp
    obtain ⟨d, hd⟩ := Option.isSome_iff_exists.mp (List.getLast?_isSome.mpr hne)
    have hdsp : isPySpace d = false := by
      apply pyStrip_getLast s
      rw [hr]; exact hd
    show pyStrip (c :: t) = c :: t
    unfold pyStrip
    rw [dropWhile_of_head (c :: t) (by simp) hc]
    exact stripEnd_of_getLast (c :: t) hd hdsp

theorem pyInt_natToDec (n : Nat) : pyInt (natToDec n) = some (n : Int) := by
  have hdig := natToDec_digits n
  have hstrip : pyStrip (natToDec n) = natToDec n :=
    pyStrip_no_space _ (fun c hc => isDigit_not_space (hdig c hc))
  obtain ⟨c, cs, hd⟩ : ∃ c cs, natToDec n = c :: cs := by
    cases hnd : natToDec n with
    | nil => exact absurd hnd (natToDec_ne_nil n)
    | cons c cs => exact ⟨c, cs, rfl⟩
  have hcdig : c.isDigit = true := by
    apply hdig; rw [hd]; exact List.mem_cons_self c cs
  obtain ⟨-, -, hm, hp⟩ := isDigit_ne hcdig
  have hall : (c :: cs).all Char.isDigit = true := by
    rw [List.all_eq_true]
    intro x hx
    apply hdig; rw [hd]; exact hx
  unfold pyInt
  rw [hstrip, hd]
  show (if (c == '-') = true then (decDigits cs).map (fun n : Nat => -(n : Int))
    else if (c == '+') = true then (decDigits cs).map (fun n : Nat => (n : Int))
    else (decDigits (c :: cs)).map (fun n : Nat => (n : Int))) = some (n : Int)
  rw [if_neg (by simp [hm]), if_neg (by simp [hp])]
  rw [decDigits, if_pos ⟨by simp, hall⟩]
  rw [Option.map_some', ← hd, natToDec_val]

/-! ## Maximum folds -/

theorem foldl_max_fixed (l : List Int) (b : Int) (h : ∀ x ∈ l, x ≤ b) :
    l.foldl max b = b := by
  induction l generalizing b with
  | nil => rfl
  | cons x t ih =>
    simp only [List.foldl_cons]
    rw [max_eq_left (h x (List.mem_cons_self x t))]
    exact ih b (fun y hy => h y (List.mem_cons_of_mem x hy))

theorem foldl_max_cast (ms : List Nat) (a : Nat) :
    (ms.map (fun n : Nat => (n : Int))).foldl max (a : Int) = ((ms.foldl max a : Nat) : Int) := by
  induction ms generalizing a with
  | nil => rfl
  | cons m t ih =>
    simp only [List.map_cons, List.foldl_cons]
    rw [show ((a : Int) ⊔ (m : Int)) = ((a ⊔ m : Nat) : Int) from (Nat.cast_max a m).symm, ih]

/-! ## findSome? helpers -/

theorem exists_of_findSome {α β : Type} {f : α → Option β} {l : List α} {b : β}
    (h : l.findSome? f = some b) : ∃ a ∈ l, f a = some b := by
  induction l with
  | nil => simp [List.findSome?] at h
  | cons a t ih =>
    rw [List.findSome?_cons] at h
    cases hfa : f a with
    | none =>
      rw [hfa] at h
      obtain ⟨x, hx, hfx⟩ := ih h
      exact ⟨x, List.mem_cons_of_mem a hx, hfx⟩
    | some v =>
      rw [hfa] at h
      have hv : v = b := by simpa using h
      exact ⟨a, List.mem_cons_self a t, by rw [hfa, hv]⟩

theorem findSome_of_if {α β : Type} (p : α → Bool) (g : α → β) (l : List α) :
    l.findSome? (fun a => if p a then some (g a) else none) = (l.find? p).map g := by
  induction l with
  | nil => rfl
  | cons a t ih =>
    rw [List.findSome?_cons, List.find?_cons]
    by_cases hp : p a = true
    · simp [hp]
    · rw [Bool.not_eq_true] at hp
      simp [hp, ih]

/-! ## Parsing the filenames written by the program -/

theorem chars_underscore : chars "_" = ['_'] := rfl

theorem output_filename_eq (name roll : List Char) (n : Nat) :
    output_filename name n roll = sanitize_role_model_name name
      ++ '_' :: (natToDec n ++ '_' :: (roll ++ chars ".json")) := by
  rw [output_filename, chars_underscore]
  simp [List.append_assoc]

theorem underscore_not_mem_natToDec (n : Nat) : '_' ∉ natToDec n := by
  intro hm
  exact absurd (natToDec_digits n _ hm) (by decide)

theorem underscore_not_mem_json : '_' ∉ chars ".json" := by decide

theorem story_extract_output (name roll : List Char) (n : Nat)
    (h1 : '_' ∉ sanitize_role_model_name name)
    (h2 : '_' ∉ roll) (h3 : '.' ∉ roll) :
    story_extract (sanitize_role_model_name name) roll
      (output_filename name n roll) = some (n : Int) := by
  have hsplit : splitOnChar '_' (output_filename name n roll)
      = [sanitize_role_model_name name, natToDec n, roll ++ chars ".json"] := by
    rw [output_filename_eq, splitOnChar_append _ _ _ h1,
      splitOnChar_append _ _ _ (underscore_not_mem_natToDec n),
      splitOnChar_not_mem _ _ (fun hm => by
        rcases List.mem_append.mp hm with hm | hm
        · exact h2 hm
        · exact underscore_not_mem_json hm)]
  have hends : pyEndsWith (output_filename name n roll) (chars ".json") = true := by
    rw [pyEndsWith, List.isSuffixOf_iff_suffix]
    rw [output_filename]
    exact List.suffix_append _ _
  have hroll : (splitOnChar '.' (roll ++ chars ".json")).headD [] = roll := by
    have : roll ++ chars ".json" = roll ++ '.' :: chars "json" := rfl
    rw [this, splitOnChar_append _ _ _ h3]
    simp
  rw [story_extract]
  rw [hends]
  simp only [Bool.true_eq_false, if_false]
  rw [hsplit]
  simp only [List.length_cons, List.length_nil, List.headD_cons, List.getD_cons_succ,
    List.getD_cons_zero]
  rw [if_neg (by omega), if_neg (by simp), hroll, if_neg (by simp)]
  exact pyInt_natToDec n

/-! ## Sequential sessions -/

theorem mem_descInts_le {x : Int} : ∀ {j : Nat}, x ∈ descInts j → x ≤ (j : Int) := by
  intro j
  induction j with
  | zero => intro hx; simp [descInts] at hx
  | succ k ih =>
    intro hx
    rcases List.mem_cons.mp hx with he | hm
    · rw [he]
    · have := ih hm
      push_cast
      push_cast at this
      omega

theorem session_extract (name roll : List Char)
    (h1 : '_' ∉ sanitize_role_model_name name)
    (h2 : '_' ∉ roll) (h3 : '.' ∉ roll) : ∀ k : Nat,
    (sessionFiles name roll k).filterMap
        (story_extract (sanitize_role_model_name name) roll) = descInts k ∧
    get_next_story_number (sessionFiles name roll k) name roll = (k : Int) + 1 := by
  intro k
  induction k with
  | zero =>
    constructor
    · rfl
    · rfl
  | succ k ih =>
    obtain ⟨hA, hB⟩ := ih
    have hsession : sessionFiles name roll (k + 1)
        = output_filename name (k + 1) roll :: sessionFiles name roll k := by
      rw [sessionFiles, hB]
      have ht : ((k : Int) + 1).toNat = k + 1 := by omega
      rw [ht]
    have hnew : (sessionFiles name roll (k + 1)).filterMap
        (story_extract (sanitize_role_model_name name) roll) = descInts (k + 1) := by
      rw [hsession, List.filterMap_cons, story_extract_output name roll (k + 1) h1 h2 h3, hA]
      rfl
    refine ⟨hnew, ?_⟩
    rw [get_next_story_number]
    simp only [hnew]
    rw [descInts]
    show List.foldl max (((k + 1 : Nat) : Int)) (descInts k) + 1 = ((k + 1 : Nat) : Int) + 1
    rw [foldl_max_fixed _ _ (fun x hx => le_trans (mem_descInts_le hx) (by push_cast; omega))]

/-! ## Skipping of files with degenerate keys (underscores or dots) -/

theorem takeWhile_ne_self_of_mem {c : Char} {l : List Char}
    (hc : c ∈ l) (p : Char → Bool) (hp : p c = false) : l.takeWhile p ≠ l := by
  intro he
  have := List.takeWhile_eq_self_iff.mp he c hc
  rw [this] at hp
  simp at hp

theorem mem_of_mem_takeWhile {c : Char} {l : List Char} {p : Char → Bool}
    (h : c ∈ l.takeWhile p) : c ∈ l :=
  ( List.takeWhile_prefix p).subset h

theorem story_extract_degenerate (name roll : List Char) (n : Nat)
    (h : '_' ∈ sanitize_role_model_name name ∨ '_' ∈ roll ∨ '.' ∈ roll) :
    story_extract (sanitize_role_model_name name) roll
      (output_filename name n roll) = none := by
  set clean := sanitize_role_model_name name with hcleandef
  have hends : pyEndsWith (output_filename name n roll) (chars ".json") = true := by
    rw [pyEndsWith, List.isSuffixOf_iff_suffix, output_filename]
    exact List.suffix_append _ _
  by_cases hclean : '_' ∈ clean
  · -- case 1: the first underscore-separated chunk is a proper prefix of the
    -- clean name, so the subject check fails
    have hlen : ¬ (splitOnChar '_' (output_filename name n roll)).length < 3 := by
      rw [splitOnChar_length]
      have hc : 2 ≤ (output_filename name n roll).count '_' := by
        rw [output_filename_eq, ← hcleandef]
        simp only [List.count_append, List.count_cons, beq_self_eq_true, if_true]
        omega
      omega
    have hne : (splitOnChar '_' (output_filename name n roll)).headD [] ≠ clean := by
      rw [splitOnChar_headD, output_filename_eq, ← hcleandef,
        takeWhile_append_stop _ ⟨'_', hclean, by simp⟩]
      exact takeWhile_ne_self_of_mem hclean _ (by simp)
    rw [story_extract, hends]
    simp only [Bool.true_eq_false, if_false]
    rw [if_neg hlen, if_pos hne]
  · -- case 2: the clean name has no underscore, so the parts align but the
    -- roll-number check fails
    have h23 : '_' ∈ roll ∨ '.' ∈ roll := by
      rcases h with h | h | h
      · exact absurd h hclean
      · exact Or.inl h
      · exact Or.inr h
    obtain ⟨rp0, rps, hrp⟩ : ∃ a t, splitOnChar '_' (roll ++ chars ".json") = a :: t := by
      cases hx : splitOnChar '_' (roll ++ chars ".json") with
      | nil => exact absurd hx (splitOnChar_ne_nil _ _)
      | cons a t => exact ⟨a, t, rfl⟩
    have hsplit2 : splitOnChar '_' (output_filename name n roll)
        = clean :: natToDec n :: rp0 :: rps := by
      rw [output_filename_eq, ← hcleandef, splitOnChar_append _ _ _ hclean,
        splitOnChar_append _ _ _ (underscore_not_mem_natToDec n), hrp]
    have hrp0 : rp0 = (roll ++ chars ".json").takeWhile (fun c => c != '_') := by
      have hh := splitOnChar_headD '_' (roll ++ chars ".json")
      rw [hrp] at hh
      simpa using hh
    have hroll_part : (splitOnChar '.' rp0).headD [] ≠ roll := by
      rw [splitOnChar_headD]
      by_cases hu : '_' ∈ roll
      · have hrr : rp0 = roll.takeWhile (fun c => c != '_') := by
          rw [hrp0, takeWhile_append_stop _ ⟨'_', hu, by simp⟩]
        intro he
        have h1 : '_' ∈ rp0 := mem_of_mem_takeWhile (he ▸ hu)
        rw [hrr] at h1
        have := List.mem_takeWhile_imp h1
        simp at this
      · have hd : '.' ∈ roll := by
          rcases h23 with hx | hx
          · exact absurd hx hu
          · exact hx
        have hrr : rp0 = roll ++ chars ".json" := by
          rw [hrp0, List.takeWhile_eq_self_iff.mpr]
          intro x hx
          rcases List.mem_append.mp hx with hx | hx
          · simp only [bne_iff_ne, ne_eq]
            intro he
            exact hu (he ▸ hx)
          · simp only [bne_iff_ne, ne_eq]
            intro he
            exact underscore_not_mem_json (he ▸ hx)
        rw [hrr, takeWhile_append_stop _ ⟨'.', hd, by simp⟩]
        exact takeWhile_ne_self_of_mem hd _ (by simp)
    rw [story_extract, hends]
    simp only [Bool.true_eq_false, if_false]
    rw [hsplit2]
    simp only [List.length_cons, List.headD_cons, List.getD_cons_succ, List.getD_cons_zero]
    rw [if_neg (by omega), if_neg (by simp), if_pos hroll_part]

/-! ## Claim C1 -/

/-- C1, counterexample: for the subject name `a_b` (whose sanitized form
contains an underscore) and operator `42`, after one record numbered 1 has
been persisted for this key, the next record is again assigned number 1 —
not 2 as the claim's `max + 1` invariant requires — so the numbers are not
a contiguous run. -/
theorem c1_counterexample :
    sessionFiles (chars "a_b") (chars "42") 1
      = [output_filename (chars "a_b") 1 (chars "42")] ∧
    get_next_story_number (sessionFiles (chars "a_b") (chars "42") 1)
      (chars "a_b") (chars "42") = 1 ∧ (1 : Int) ≠ 2 := by
  refine ⟨by decide, by decide, by decide⟩

theorem filterMap_output_filenames (name roll : List Char)
    (h1 : '_' ∉ sanitize_role_model_name name)
    (h2 : '_' ∉ roll) (h3 : '.' ∉ roll) : ∀ ns : List Nat,
    (ns.map (fun n => output_filename name n roll)).filterMap
        (story_extract (sanitize_role_model_name name) roll)
      = ns.map (fun n : Nat => (n : Int)) := by
  intro ns
  induction ns with
  | nil => rfl
  | cons n ms ih =>
    rw [List.map_cons, List.filterMap_cons, story_extract_output name roll n h1 h2 h3,
      ih, List.map_cons]

/-- C1, amended: provided the sanitized subject name contains no underscore
and the operator identifier contains no underscore and no dot, the number
assigned by `get_next_story_number` over any directory of records persisted
for that key is one greater than their maximum (1 for an empty directory),
and the records persisted sequentially for the key are numbered 1, 2, 3, …
with no gaps. -/
theorem c1_next_number (name roll : List Char)
    (h1 : '_' ∉ sanitize_role_model_name name)
    (h2 : '_' ∉ roll) (h3 : '.' ∉ roll) :
    (∀ ns : List Nat,
      get_next_story_number (ns.map (fun n => output_filename name n roll)) name roll
        = ((ns.foldl max 0 : Nat) : Int) + 1) ∧
    (∀ k : Nat,
      get_next_story_number (sessionFiles name roll k) name roll = (k : Int) + 1) := by
  constructor
  · intro ns
    rw [get_next_story_number]
    simp only [filterMap_output_filenames name roll h1 h2 h3]
    cases ns with
    | nil => rfl
    | cons n ms =>
      rw [List.map_cons]
      show (ms.map (fun n : Nat => (n : Int))).foldl max ((n : Nat) : Int) + 1 = _
      rw [foldl_max_cast]
      rw [List.foldl_cons, Nat.zero_max]
  · exact fun k => (session_extract name roll h1 h2 h3 k).2

/-- C1, witness: for subject `Jane Doe` and operator `42` (a non-degenerate
key) the third sequentially persisted record is numbered 3. -/
theorem c1_witness :
    get_next_story_number (sessionFiles (chars "Jane Doe") (chars "42") 2)
      (chars "Jane Doe") (chars "42") = 3 := by
  have h := (c1_next_number (chars "Jane Doe") (chars "42")
    (by decide) (by decide) (by decide)).2 2
  norm_num at h
  exact h

/-! ## Claim C5 -/

/-- C5: a directory entry that has the wrong extension, or fewer than three
underscore-separated parts, or a subject or operator segment differing from
the queried key, or a non-numeric story segment, is skipped: adding it to
the listing leaves the computed next number unchanged (and the total
function returns a value on every input, rather than raising). -/
theorem c5_malformed_skipped (files : List (List Char)) (name roll f : List Char)
    (h : pyEndsWith f (chars ".json") = false
       ∨ (splitOnChar '_' f).length < 3
       ∨ (splitOnChar '_' f).headD [] ≠ sanitize_role_model_name name
       ∨ (splitOnChar '.' ((splitOnChar '_' f).getD 2 [])).headD [] ≠ roll
       ∨ pyInt ((splitOnChar '_' f).getD 1 []) = none) :
    get_next_story_number (f :: files) name roll
      = get_next_story_number files name roll := by
  have hnone : story_extract (sanitize_role_model_name name) roll f = none := by
    rw [story_extract]
    by_cases he : pyEndsWith f (chars ".json") = false
    · rw [if_pos he]
    · rw [if_neg he]
      by_cases hl : (splitOnChar '_' f).length < 3
      · rw [if_pos hl]
      · rw [if_neg hl]
        by_cases hn : (splitOnChar '_' f).headD [] ≠ sanitize_role_model_name name
        · rw [if_pos hn]
        · rw [if_neg hn]
          by_cases hr : (splitOnChar '.' ((splitOnChar '_' f).getD 2 [])).headD [] ≠ roll
          · rw [if_pos hr]
          · rw [if_neg hr]
            rcases h with h | h | h | h | h
            · exact absurd h he
            · exact absurd h hl
            · exact absurd h hn
            · exact absurd h hr
            · exact h
  rw [get_next_story_number, get_next_story_number, List.filterMap_cons, hnone]

/-- C5, witness: a file named `notes.txt` in the output directory does not
change the number computed for subject `Jane Doe`, operator `42`. -/
theorem c5_witness :
    get_next_story_number [chars "notes.txt"] (chars "Jane Doe") (chars "42")
      = get_next_story_number [] (chars "Jane Doe") (chars "42") :=
  c5_malformed_skipped [] (chars "Jane Doe") (chars "42") (chars "notes.txt")
    (Or.inl (by decide))

/-! ## Claim C9 -/

/-- C9: when the sanitized subject name contains an underscore, or the
operator identifier contains an underscore or a dot, `get_next_story_number`
fails to recognize even the files this program itself wrote for that exact
key (it reads the subject as the text before the first underscore and the
operator as the third underscore token cut at its first dot), so it returns
1 no matter how many records for the key the directory holds. -/
theorem c9_degenerate_key (name roll : List Char) (files : List (List Char))
    (hkey : '_' ∈ sanitize_role_model_name name ∨ '_' ∈ roll ∨ '.' ∈ roll)
    (hfiles : ∀ f ∈ files, ∃ n : Nat, f = output_filename name n roll) :
    get_next_story_number files name roll = 1 := by
  have hfm : files.filterMap (story_extract (sanitize_role_model_name name) roll) = [] := by
    induction files with
    | nil => rfl
    | cons f fs ih =>
      obtain ⟨n, hf⟩ := hfiles f (List.mem_cons_self f fs)
      rw [List.filterMap_cons, hf, story_extract_degenerate name roll n hkey]
      exact ih (fun g hg => hfiles g (List.mem_cons_of_mem f hg))
  rw [get_next_story_number, hfm]

/-- C9, witness: with subject `a_b` and operator `42`, a directory holding
the program-written first record for this key still yields number 1. -/
theorem c9_witness :
    get_next_story_number [output_filename (chars "a_b") 1 (chars "42")]
      (chars "a_b") (chars "42") = 1 :=
  c9_degenerate_key (chars "a_b") (chars "42")
    [output_filename (chars "a_b") 1 (chars "42")]
    (Or.inl (by decide))
    (fun f hf => ⟨1, List.mem_singleton.mp hf⟩)

/-! ## Claim C2 -/

/-- C2, counterexample: the input `1,1` selects only one distinct valid
index, yet it is accepted, and the returned selection contains the theme
`anxiety` twice — duplicates are not prevented, because the 2–4 bound is
checked on the token count, not the distinct count. -/
theorem c2_counterexample :
    select_mental_health_themes [chars "1,1"]
      = some [chars "anxiety", chars "anxiety"] ∧
    ¬ List.Nodup [chars "anxiety", chars "anxiety"] := by
  refine ⟨by decide, by decide⟩

/-- C2, amended: every accepted theme selection has between 2 and 4 entries
counted with multiplicity (duplicates permitted), and every entry is drawn
from the theme vocabulary; any input with an index outside the 1-based
bounds, a non-numeric token, or a token count outside 2–4 is rejected and
re-prompted. -/
theorem c2_themes (inputs : List (List Char)) (sel : List (List Char))
    (h : select_mental_health_themes inputs = some sel) :
    2 ≤ sel.length ∧ sel.length ≤ 4 ∧ ∀ t ∈ sel, t ∈ MENTAL_HEALTH_THEMES := by
  obtain ⟨inp, -, hatt⟩ := exists_of_findSome h
  rw [select_themes_attempt] at hatt
  split at hatt
  · exact absurd hatt (by simp)
  · rename_i parsed hmo
    dsimp only [] at hatt
    split at hatt
    · rename_i hbound
      split at hatt
      · rename_i hcount
        have hsel : (List.map (fun c => c - 1) parsed).map
            (fun c => MENTAL_HEALTH_THEMES.getD c.toNat []) = sel :=
          Option.some.inj hatt
        refine ⟨?_, ?_, ?_⟩
        · rw [← hsel, List.length_map]
          exact hcount.1
        · rw [← hsel, List.length_map]
          exact hcount.2
        · intro t ht
          rw [← hsel] at ht
          obtain ⟨c, hc, hct⟩ := List.mem_map.mp ht
          obtain ⟨hc0, hc10⟩ := hbound c hc
          have hlt : c.toNat < MENTAL_HEALTH_THEMES.length := by
            have hlen : MENTAL_HEALTH_THEMES.length = 10 := rfl
            rw [hlen] at hc10 ⊢
            omega
          rw [← hct, List.getD_eq_getElem _ _ hlt]
          exact List.getElem_mem hlt
      · exact absurd hatt (by simp)
    · exact absurd hatt (by simp)

/-- C2, witness: the spec's scenario input `1,3,5` yields the 1st, 3rd and
5th vocabulary entries, a selection of three in-vocabulary themes. -/
theorem c2_witness :
    2 ≤ [chars "anxiety", chars "stress_management", chars "grief"].length ∧
    [chars "anxiety", chars "stress_management", chars "grief"].length ≤ 4 ∧
    ∀ t ∈ [chars "anxiety", chars "stress_management", chars "grief"],
      t ∈ MENTAL_HEALTH_THEMES :=
  c2_themes [chars "1,3,5"]
    [chars "anxiety", chars "stress_management", chars "grief"] (by decide)

/-! ## Claim C3 -/

/-- C3, counterexample: the input `,,,,,` (five commas) passes the
minimum-length gate of 5 characters, yet splitting it on commas and
dropping empty items leaves an empty list — so the accepted result does not
always contain one or more items. -/
theorem c3_counterexample :
    get_coping_strategies [chars ",,,,,"] = some [] ∧
    ¬ 1 ≤ ([] : List (List Char)).length := by
  refine ⟨by decide, by decide⟩

/-- C3, amended: the accepted raw input is split on commas, each item is
trimmed, empty items are dropped and the rest are returned in input order
(possibly zero items when the input is only commas and whitespace); the
scenario input `therapy, meditation ,  journaling` yields exactly
`therapy`, `meditation`, `journaling`. -/
theorem c3_strategies (inputs : List (List Char)) (out : List (List Char))
    (h : get_coping_strategies inputs = some out) :
    (∀ t ∈ out, t ≠ [] ∧ pyStrip t = t) ∧
    get_coping_strategies [chars "therapy, meditation ,  journaling"]
      = some [chars "therapy", chars "meditation", chars "journaling"] := by
  refine ⟨?_, by decide⟩
  obtain ⟨raw, -, hatt⟩ := exists_of_findSome h
  rw [strategies_attempt] at hatt
  split at hatt
  · exact absurd hatt (by simp)
  · have hout := Option.some.inj hatt
    intro t ht
    rw [← hout] at ht
    obtain ⟨htm, hne⟩ := List.mem_filter.mp ht
    obtain ⟨tok, -, htok⟩ := List.mem_map.mp htm
    constructor
    · simpa using hne
    · rw [← htok]
      exact pyStrip_idem tok

/-- C3, witness: the scenario input is accepted and every returned item is
a nonempty trimmed string. -/
theorem c3_witness :
    (∀ t ∈ [chars "therapy", chars "meditation", chars "journaling"],
      t ≠ [] ∧ pyStrip t = t) ∧
    get_coping_strategies [chars "therapy, meditation ,  journaling"]
      = some [chars "therapy", chars "meditation", chars "journaling"] :=
  c3_strategies [chars "therapy, meditation ,  journaling"]
    [chars "therapy", chars "meditation", chars "journaling"] (by decide)

/-! ## Claim C6 -/

/-- C6: `infer_role_model_name_from_raw` returns the stripped text after
the colon of the first line whose lowercasing starts with `role model:`
(and `none` when no line matches), and the scenario text containing the
line `Role Model:  Jane Doe ` among other lines yields exactly
`Jane Doe`. -/
theorem c6_infer (raw : List Char) :
    infer_role_model_name_from_raw raw
      = ((pySplitlines raw).find?
          (fun line => (chars "role model:").isPrefixOf (pyLower line))).map
          (fun line => pyStrip ((pySplitOnce ':' line).getD 1 [])) ∧
    infer_role_model_name_from_raw
        (chars "About Jane\nRole Model:  Jane Doe \nBorn 1992")
      = some (chars "Jane Doe") := by
  constructor
  · rw [infer_role_model_name_from_raw]
    exact findSome_of_if _ _ _
  · decide

/-! ## Claim C7 -/

/-- C7: sanitization removes exactly the spaces and apostrophes of the
subject name, and with an empty output directory the first record for
subject `Jane Doe` and operator `42` is numbered 1 and written as
`JaneDoe_1_42.json`. -/
theorem c7_filename (name : List Char) :
    sanitize_role_model_name name
      = name.filter (fun c => !(c == ' ' || c == squote)) ∧
    get_next_story_number [] (chars "Jane Doe") (chars "42") = 1 ∧
    output_filename (chars "Jane Doe") 1 (chars "42") = chars "JaneDoe_1_42.json" := by
  refine ⟨?_, by decide, by decide⟩
  rw [sanitize_role_model_name, removeAllChar, removeAllChar, List.filter_filter]
  apply List.filter_congr
  intro c _
  by_cases h1 : c = ' ' <;> by_cases h2 : c = squote <;>
    simp [bne, h1, h2, Bool.and_comm]

/-! ## Claim C10 -/

/-- C10: persisting writes the computed output path unconditionally; a path
already bound in the store is silently rebound to the new entry, with no
error value and no existence check — in particular writing the same
computed filename twice leaves only the second entry. -/
theorem c10_overwrite (store : List Char → Option StoryEntry)
    (e_old e_new : StoryEntry) (name roll : List Char) (n : Nat) :
    write_entry store (output_filename name n roll) e_new
        (output_filename name n roll) = some e_new ∧
    write_entry (write_entry store (output_filename name n roll) e_old)
        (output_filename name n roll) e_new
        (output_filename name n roll) = some e_new := by
  constructor <;> simp [write_entry]

/-! ## Claim C4 -/

theorem quote_spec (raw : List Char) : ∀ (m : Nat) (inputs : List (List Char)),
    inputs.length ≤ m → ∀ q, get_quote_from_text raw inputs = some q →
    (pyStrip q = q ∧ 10 ≤ q.length) ∧
    (pyIn (pyLower q) (pyLower raw) = true ∨ ∃ c ∈ inputs, pyLower c = chars "y") := by
  intro m
  induction m with
  | zero =>
    intro inputs hlen q h
    rw [List.length_eq_zero.mp (Nat.le_zero.mp hlen)] at h
    exact absurd h (by simp [get_quote_from_text])
  | succ m ih =>
    intro inputs hlen q h
    cases inputs with
    | nil => exact absurd h (by simp [get_quote_from_text])
    | cons i rest =>
      rw [get_quote_from_text.eq_def] at h
      dsimp only [] at h
      by_cases hshort : (pyStrip i).isEmpty = true ∨ (pyStrip i).length < 10
      · rw [if_pos hshort] at h
        have hr := ih rest (by simpa using Nat.le_of_succ_le_succ hlen) q h
        refine ⟨hr.1, ?_⟩
        rcases hr.2 with hc | ⟨c, hc, hcy⟩
        · exact Or.inl hc
        · exact Or.inr ⟨c, List.mem_cons_of_mem i hc, hcy⟩
      · rw [if_neg hshort] at h
        push_neg at hshort
        by_cases hin : pyIn (pyLower (pyStrip i)) (pyLower raw) = true
        · rw [if_pos hin] at h
          have hq : pyStrip i = q := Option.some.inj h
          subst hq
          exact ⟨⟨pyStrip_idem i, by omega⟩, Or.inl hin⟩
        · rw [if_neg hin] at h
          cases rest with
          | nil => exact absurd h (by simp)
          | cons confirm rest2 =>
            dsimp only [] at h
            by_cases hy : pyLower confirm = chars "y"
            · rw [if_pos hy] at h
              have hq : pyStrip i = q := Option.some.inj h
              subst hq
              refine ⟨⟨pyStrip_idem i, by omega⟩, Or.inr ⟨confirm, ?_, hy⟩⟩
              exact List.mem_cons_of_mem i (List.mem_cons_self confirm rest2)
            · rw [if_neg hy] at h
              have hlen2 : rest2.length ≤ m := by
                simp only [List.length_cons] at hlen
                omega
              have hr := ih rest2 hlen2 q h
              refine ⟨hr.1, ?_⟩
              rcases hr.2 with hc | ⟨c, hc, hcy⟩
              · exact Or.inl hc
              · exact Or.inr ⟨c, List.mem_cons_of_mem i
                  (List.mem_cons_of_mem confirm hc), hcy⟩

/-- C4: every accepted quote is a stripped input of length at least 10, and
either it occurs case-insensitively in the source text or some line the
operator typed was the affirmative override `y`; a quote absent from the
source is still accepted once the operator confirms, as the closing
concrete run shows — containment failure alone never rejects the record. -/
theorem c4_quote (raw : List Char) (inputs : List (List Char)) (q : List Char)
    (h : get_quote_from_text raw inputs = some q) :
    (pyStrip q = q ∧ 10 ≤ q.length) ∧
    (pyIn (pyLower q) (pyLower raw) = true ∨ ∃ c ∈ inputs, pyLower c = chars "y") ∧
    get_quote_from_text (chars "some source material")
        [chars "absent quote here!", chars "y"]
      = some (chars "absent quote here!") := by
  obtain ⟨ha, hb⟩ := quote_spec raw inputs.length inputs (Nat.le_refl _) q h
  exact ⟨ha, hb, by decide⟩

/-- C4, witness: a quote that does occur in the source text is accepted
with no override, and it is trimmed with length at least 10. -/
theorem c4_witness :
    (pyStrip (chars "healing takes time") = chars "healing takes time" ∧
      10 ≤ (chars "healing takes time").length) ∧
    (pyIn (pyLower (chars "healing takes time"))
        (pyLower (chars "He said: Healing takes time and effort")) = true ∨
      ∃ c ∈ [chars "healing takes time"], pyLower c = chars "y") ∧
    get_quote_from_text (chars "some source material")
        [chars "absent quote here!", chars "y"]
      = some (chars "absent quote here!") :=
  c4_quote (chars "He said: Healing takes time and effort")
    [chars "healing takes time"] (chars "healing takes time") (by decide)

/-! ## Claim C8 -/

theorem collect_field_spec (minLen : Nat) : ∀ (inputs : List (List Char)) (out : List Char),
    collect_field minLen inputs = some out → pyStrip out = out ∧ minLen ≤ out.length := by
  intro inputs
  induction inputs with
  | nil =>
    intro out h
    exact absurd h (by simp [collect_field])
  | cons i rest ih =>
    intro out h
    rw [collect_field] at h
    by_cases hc : (pyStrip i).isEmpty = true ∨ (pyStrip i).length < minLen
    · rw [if_pos hc] at h
      exact ih out h
    · rw [if_neg hc] at h
      push_neg at hc
      have hq : pyStrip i = out := Option.some.inj h
      subst hq
      exact ⟨pyStrip_idem i, by omega⟩

/-- C8: each validated free-text prompt only ever returns a trimmed string
meeting its configured minimum length — 10 for context, situation and
outcome, 20 for the challenge narrative and psychological lesson, and 5
for the key action; shorter input is re-prompted, never returned. -/
theorem c8_min_lengths (inputs : List (List Char)) (out : List Char) :
    (get_context inputs = some out → pyStrip out = out ∧ 10 ≤ out.length) ∧
    (get_situation_faced inputs = some out → pyStrip out = out ∧ 10 ≤ out.length) ∧
    (get_challenge_narrative inputs = some out → pyStrip out = out ∧ 20 ≤ out.length) ∧
    (get_psychological_lesson inputs = some out → pyStrip out = out ∧ 20 ≤ out.length) ∧
    (get_outcome_resolution inputs = some out → pyStrip out = out ∧ 10 ≤ out.length) ∧
    (get_key_action inputs = some out → pyStrip out = out ∧ 5 ≤ out.length) :=
  ⟨fun h => collect_field_spec 10 inputs out h,
   fun h => collect_field_spec 10 inputs out h,
   fun h => collect_field_spec 20 inputs out h,
   fun h => collect_field_spec 20 inputs out h,
   fun h => collect_field_spec 10 inputs out h,
   fun h => collect_field_spec 5 inputs out h⟩

/-- C8, witness: a 21-character context input is returned trimmed with
length at least 10, and a 30-character narrative input is returned trimmed
with length at least 20. -/
theorem c8_witness :
    (pyStrip (chars "a long enough context") = chars "a long enough context" ∧
      10 ≤ (chars "a long enough context").length) ∧
    (pyStrip (chars "a narrative well beyond twenty")
        = chars "a narrative well beyond twenty" ∧
      20 ≤ (chars "a narrative well beyond twenty").length) :=
  ⟨(c8_min_lengths [chars "a long enough context"]
      (chars "a long enough context")).1 (by decide),
   (c8_min_lengths [chars "a narrative well beyond twenty"]
      (chars "a narrative well beyond twenty")).2.2.1 (by decide)⟩

end Phase2
